import Mathlib

/-!
# Verification of the ALLOSAUR accumulator core (agora-allosaurus-rs)

A shallow embedding of the core of the ALLOSAUR dynamic accumulator:
server add/delete, batch accumulator updates with coefficient polynomials,
Shamir sharing with a validity check, the distributed witness update, and
the zero-knowledge membership proof.

The BLS12-381 pairing groups G1, G2 and Gt are cyclic of the same prime
order q, with fixed generators; the curve library is an external primitive
of the crate.  We therefore work over an arbitrary field `F` (standing for
the scalar field) and represent a group element by its discrete logarithm
with respect to the group generator: a G1 element is an `F`, a G2 element
is an `F`, a Gt element is an `F`, scalar multiplication is field
multiplication, group addition is field addition, and the pairing of two
exponents is their product (bilinearity and non-degeneracy of the
BLS12-381 pairing make this a faithful model of all the group arithmetic
and equality tests the code performs).  Concrete evaluations instantiate
`F` with a small prime field on `Fin 5`, whose inverse is a power so that
every operation evaluates by computation.
-/

namespace AllosaurVerif

section Model

variable {F : Type} [Field F] [DecidableEq F]

/-! ## Server state and the add / delete operations (src/servers.rs)

The server stores the accumulator history, the witness secret key alpha,
the signing secret key, both public keys, the set of user ids, the map
from user id to membership witness, and the deletion log.  The witness
map (a Rust HashMap with pairwise distinct keys) is modelled as an
association list. -/

/-- The server state of src/servers.rs.  Group elements are exponents. -/
structure ServerState (F : Type) where
  accumulators : List F
  witSecretKey : F
  signSecretKey : F
  pubWitnessKey : F
  pubSignKey : F
  allUsers : List F
  allWitnesses : List (F × F)
  deletions : List F
  deriving Repr

/-- The group parameters of src/utils.rs (each stored as its exponent over
the corresponding generator). -/
structure AccParams (F : Type) where
  p1 : F
  p2 : F
  k0 : F
  k1 : F
  k2 : F
  x1 : F
  y1 : F
  z1 : F
  deriving Repr

/-- Key lookup in the witness map (HashMap::get / contains_key). -/
def lookupW (l : List (F × F)) (y : F) : Option F :=
  match l with
  | [] => none
  | p :: rest => if p.1 = y then some p.2 else lookupW rest y

/-- Key removal from the witness map (HashMap::remove; keys are unique in a
HashMap, so removing every entry with the key is the same operation). -/
def removeW (l : List (F × F)) (y : F) : List (F × F) :=
  l.filter (fun p => decide (p.1 ≠ y))

/-- The last accumulator, self.accumulators.last().unwrap(); the list is
nonempty for every state the code constructs. -/
def lastAcc (s : ServerState F) : F :=
  s.accumulators.getLast?.getD 0

/-- Server::new: one random initial accumulator, fresh keys, empty maps.
alpha, s_m and the initial accumulator exponent v are the randomly drawn
scalars. -/
def serverNew (params : AccParams F) (alpha sm v : F) : ServerState F :=
  { accumulators := [v]
    witSecretKey := alpha
    signSecretKey := sm
    pubWitnessKey := params.p2 * alpha
    pubSignKey := params.k2 * sm
    allUsers := []
    allWitnesses := []
    deletions := [] }

/-- Server::add: if the user already has a witness return None; otherwise
record the user and store the fresh witness V * (y + alpha)^-1. -/
def serverAdd (s : ServerState F) (y : F) : ServerState F × Option F :=
  if (lookupW s.allWitnesses y).isSome then (s, none)
  else
    let wit := lastAcc s * (y + s.witSecretKey)⁻¹
    ({ s with
        allUsers := s.allUsers ++ [y]
        allWitnesses := s.allWitnesses ++ [(y, wit)] }, some wit)

/-- Server::delete: remove the user's witness, push it as the new
accumulator, rewrite every surviving witness as
(C - V_new) * (y_del - y_other)^-1, and log the deletion. -/
def serverDelete (s : ServerState F) (y : F) : ServerState F × Option F :=
  match lookupW s.allWitnesses y with
  | none => (s, none)
  | some wit =>
    let newAcc := wit
    ({ s with
        accumulators := s.accumulators ++ [newAcc]
        allWitnesses :=
          (removeW s.allWitnesses y).map
            (fun p => (p.1, (p.2 - newAcc) * (y - p.1)⁻¹))
        deletions := s.deletions ++ [y] }, some newAcc)

/-- Server::quick_delete: remove the user's witness, advance the
accumulator by (y + alpha)^-1 using the secret key, log the deletion, and
leave the other stored witnesses untouched. -/
def serverQuickDelete (s : ServerState F) (y : F) : ServerState F × Option F :=
  if (lookupW s.allWitnesses y).isSome then
    let newAcc := lastAcc s * (y + s.witSecretKey)⁻¹
    ({ s with
        accumulators := s.accumulators ++ [newAcc]
        allWitnesses := removeW s.allWitnesses y
        deletions := s.deletions ++ [y] }, some newAcc)
  else (s, none)

/-- Server::get_epoch: the number of accumulators produced so far. -/
def getEpoch (s : ServerState F) : Nat :=
  s.accumulators.length

/-- The pairing e : G1 x G2 -> Gt on exponents: e(a P1, b P2) = (a*b) GT. -/
def pairE (a b : F) : F := a * b

/-- States reachable from Server::new by add and delete calls that return
(a panicking call, i.e. an add of a fresh y with y + alpha = 0, produces
no successor state). -/
inductive ReachableAD (params : AccParams F) : ServerState F → Prop
  | init (alpha sm v : F) : ReachableAD params (serverNew params alpha sm v)
  | add (s : ServerState F) (y : F) (hs : ReachableAD params s)
      (hok : (lookupW s.allWitnesses y).isSome ∨ y + s.witSecretKey ≠ 0) :
      ReachableAD params (serverAdd s y).1
  | del (s : ServerState F) (y : F) (hs : ReachableAD params s) :
      ReachableAD params (serverDelete s y).1

/-! ## The witness-map invariant (claims C1, C9) -/

/-- The inductive invariant: the accumulator list is nonempty, witness-map
keys are pairwise distinct, the stored witness public key is P2 * alpha,
and every stored witness C for y satisfies C * (y + alpha) = V for the
latest accumulator V. -/
def ServerInv (params : AccParams F) (s : ServerState F) : Prop :=
  s.accumulators ≠ [] ∧
  (s.allWitnesses.map Prod.fst).Nodup ∧
  s.pubWitnessKey = params.p2 * s.witSecretKey ∧
  ∀ p ∈ s.allWitnesses, p.2 * (p.1 + s.witSecretKey) = lastAcc s

theorem lookupW_eq_none_forall {l : List (F × F)} {y : F}
    (h : lookupW l y = none) : ∀ p ∈ l, p.1 ≠ y := by
  induction l with
  | nil => intro p hp; cases hp
  | cons q rest ih =>
    intro p hp
    by_cases hq : q.1 = y
    · simp [lookupW, hq] at h
    · rcases List.mem_cons.mp hp with rfl | hp'
      · exact hq
      · exact ih (by simpa [lookupW, hq] using h) p hp'

theorem lookupW_mem {l : List (F × F)} {y w : F}
    (h : lookupW l y = some w) : (y, w) ∈ l := by
  induction l with
  | nil => cases h
  | cons q rest ih =>
    by_cases hq : q.1 = y
    · simp only [lookupW, if_pos hq] at h
      have : q = (y, w) := by
        cases q; cases h; cases hq; rfl
      exact this ▸ List.mem_cons_self _ _
    · exact List.mem_cons_of_mem _ (ih (by simpa [lookupW, hq] using h))

theorem mem_removeW {l : List (F × F)} {y : F} {p : F × F}
    (h : p ∈ removeW l y) : p ∈ l ∧ p.1 ≠ y := by
  have := List.mem_filter.mp h
  exact ⟨this.1, by simpa using this.2⟩

theorem removeW_keys_nodup {l : List (F × F)} {y : F}
    (h : (l.map Prod.fst).Nodup) : ((removeW l y).map Prod.fst).Nodup :=
  List.Nodup.sublist (List.Sublist.map _ (List.filter_sublist l)) h

theorem lookupW_append_isSome {l : List (F × F)} {y : F} (q : F × F) :
    lookupW (l ++ [q]) y = none → lookupW l y = none := by
  induction l with
  | nil => intro _; rfl
  | cons r rest ih =>
    by_cases hr : r.1 = y
    · intro h; simp [lookupW, hr] at h
    · intro h
      simpa [lookupW, hr] using ih (by simpa [lookupW, hr] using h)

theorem serverAdd_of_not_mem (s : ServerState F) (y : F)
    (h : ¬(lookupW s.allWitnesses y).isSome = true) :
    (serverAdd s y).1 = { s with
      allUsers := s.allUsers ++ [y]
      allWitnesses :=
        s.allWitnesses ++ [(y, lastAcc s * (y + s.witSecretKey)⁻¹)] } := by
  simp [serverAdd, h]

theorem serverDelete_of_lookup (s : ServerState F) (y wit : F)
    (h : lookupW s.allWitnesses y = some wit) :
    (serverDelete s y).1 = { s with
      accumulators := s.accumulators ++ [wit]
      allWitnesses := (removeW s.allWitnesses y).map
        (fun p => (p.1, (p.2 - wit) * (y - p.1)⁻¹))
      deletions := s.deletions ++ [y] } := by
  simp [serverDelete, h]

/-- Every state reachable by add/delete satisfies the invariant. -/
theorem reachable_inv (params : AccParams F) (s : ServerState F)
    (h : ReachableAD params s) : ServerInv params s := by
  induction h with
  | init alpha sm v =>
    refine ⟨by simp [serverNew], by simp [serverNew], rfl, ?_⟩
    intro p hp; simp [serverNew] at hp
  | add s y hs hok ih =>
    rcases ih with ⟨hne, hnd, hpk, hinv⟩
    by_cases hmem : (lookupW s.allWitnesses y).isSome
    · simpa [serverAdd, hmem] using ⟨hne, hnd, hpk, hinv⟩
    · have hy : y + s.witSecretKey ≠ 0 := by
        rcases hok with hok | hok
        · exact absurd hok hmem
        · exact hok
      have hlook : lookupW s.allWitnesses y = none :=
        Option.not_isSome_iff_eq_none.mp hmem
      have hfresh : ∀ p ∈ s.allWitnesses, p.1 ≠ y :=
        lookupW_eq_none_forall hlook
      rw [serverAdd_of_not_mem s y hmem]
      refine ⟨hne, ?_, hpk, ?_⟩
      · simp only [List.map_append]
        rw [List.nodup_append]
        refine ⟨hnd, List.nodup_singleton _, ?_⟩
        intro a ha hb
        simp only [List.map_cons, List.map_nil, List.mem_singleton] at hb
        rcases List.mem_map.mp ha with ⟨p, hp, rfl⟩
        exact hfresh p hp hb
      · intro p hp
        simp only [List.mem_append, List.mem_singleton] at hp
        have hlast : lastAcc { s with
            allUsers := s.allUsers ++ [y]
            allWitnesses :=
              s.allWitnesses ++ [(y, lastAcc s * (y + s.witSecretKey)⁻¹)] } =
            lastAcc s := rfl
        rw [hlast]
        rcases hp with hp | rfl
        · exact hinv p hp
        · show lastAcc s * (y + s.witSecretKey)⁻¹ * (y + s.witSecretKey) = lastAcc s
          rw [mul_assoc, inv_mul_cancel₀ hy, mul_one]
  | del s y hs ih =>
    rcases ih with ⟨hne, hnd, hpk, hinv⟩
    rcases hl : lookupW s.allWitnesses y with _ | wit
    · simpa [serverDelete, hl] using ⟨hne, hnd, hpk, hinv⟩
    · have hymem : (y, wit) ∈ s.allWitnesses := lookupW_mem hl
      have hwit : wit * (y + s.witSecretKey) = lastAcc s := by
        simpa using hinv (y, wit) hymem
      rw [serverDelete_of_lookup s y wit hl]
      have hlast : lastAcc { s with
          accumulators := s.accumulators ++ [wit]
          allWitnesses := (removeW s.allWitnesses y).map
            (fun p => (p.1, (p.2 - wit) * (y - p.1)⁻¹))
          deletions := s.deletions ++ [y] } = wit := by
        unfold lastAcc
        simp [List.getLast?_concat]
      refine ⟨?_, ?_, hpk, ?_⟩
      · intro hcon
        simp only at hcon
        rcases List.append_eq_nil.mp hcon with ⟨-, h2⟩
        cases h2
      · have hkeys : (((removeW s.allWitnesses y).map
            (fun p => (p.1, (p.2 - wit) * (y - p.1)⁻¹))).map Prod.fst) =
            (removeW s.allWitnesses y).map Prod.fst := by
          simp [List.map_map, Function.comp]
        show (((removeW s.allWitnesses y).map
            (fun p => (p.1, (p.2 - wit) * (y - p.1)⁻¹))).map Prod.fst).Nodup
        rw [hkeys]
        exact removeW_keys_nodup hnd
      · intro p hp
        rw [hlast]
        simp only [List.mem_map] at hp
        rcases hp with ⟨q, hq, rfl⟩
        rcases mem_removeW hq with ⟨hqmem, hqne⟩
        have hq' : q.2 * (q.1 + s.witSecretKey) = lastAcc s := hinv q hqmem
        have hyne : y - q.1 ≠ 0 := sub_ne_zero.mpr (Ne.symm hqne)
        show (q.2 - wit) * (y - q.1)⁻¹ * (q.1 + s.witSecretKey) = wit
        field_simp
        linear_combination hq' - hwit

/-- Claim C1: after any sequence of add/delete (no quick_delete), every
user y stored in the witness map with witness C satisfies the pairing
equation e(C, P2*y + Q) = e(V, P2), with V the last accumulator and
Q = P2*alpha the witness public key. -/
theorem C1_membership_invariant (params : AccParams F) (s : ServerState F)
    (h : ReachableAD params s) (y C : F) (hmem : (y, C) ∈ s.allWitnesses) :
    pairE C (params.p2 * y + s.pubWitnessKey) = pairE (lastAcc s) params.p2 := by
  rcases reachable_inv params s h with ⟨-, -, hpk, hinv⟩
  have hC : C * (y + s.witSecretKey) = lastAcc s := by
    simpa using hinv (y, C) hmem
  rw [hpk]
  unfold pairE
  linear_combination params.p2 * hC

/-- A small prime field with fully evaluable arithmetic, used only to
instantiate the generic development on concrete inputs.  The inverse is
computed as the (p-2)-th power so that every field operation reduces by
computation. -/
instance fieldFin5 : Field (Fin 5) :=
  { (inferInstance : CommRing (Fin 5)) with
    inv := fun a => a ^ 3
    div := fun a b => a * b ^ 3
    div_eq_mul_inv := fun _ _ => rfl
    exists_pair_ne := ⟨0, 1, by decide⟩
    mul_inv_cancel := by decide
    inv_zero := by decide
    nnqsmul := _
    nnqsmul_def := fun _ _ => rfl
    qsmul := _
    qsmul_def := fun _ _ => rfl }

/-- Witness for C1: in the model over the field with 5 elements, after
adding user 2 to a fresh server with alpha = 1 and initial accumulator 1,
the stored witness 2 satisfies the pairing equation. -/
theorem C1_membership_invariant_witness :
    pairE (2 : Fin 5)
        ((1 : Fin 5) * 2 +
          (serverAdd (serverNew ⟨1, 1, 1, 1, 1, 1, 1, 1⟩ 1 1 1) 2).1.pubWitnessKey) =
      pairE (lastAcc (serverAdd (serverNew ⟨1, 1, 1, 1, 1, 1, 1, 1⟩ 1 1 1) 2).1) 1 :=
  C1_membership_invariant ⟨1, 1, 1, 1, 1, 1, 1, 1⟩ _
    (ReachableAD.add _ 2 (ReachableAD.init 1 1 1) (Or.inr (by decide))) 2 2
    (by decide)

/-- Sample group parameters over the 5-element field, for concrete
evaluations. -/
def sampleParams : AccParams (Fin 5) := ⟨1, 1, 1, 1, 1, 1, 1, 1⟩

/-- A sample fresh server over the 5-element field. -/
def sampleServer : ServerState (Fin 5) := serverNew sampleParams 1 1 1

/-- Counterexample for C9: a delete call for a user with no stored witness
appends nothing, so delete does not append one accumulator entry and one
deletion entry per call. -/
theorem C9_counterexample :
    ¬ ((serverDelete sampleServer 2).1.deletions.length =
        sampleServer.deletions.length + 1) := by
  decide

/-- Claim C9 as amended: add never changes the accumulator list, the
deletion log, the epoch or the public keys; delete and quick_delete each
append exactly one accumulator entry and one deletion entry when the user
has a stored witness, and leave the state unchanged otherwise. -/
theorem C9_frame_effect (s : ServerState F) (y : F) :
    (serverAdd s y).1.accumulators = s.accumulators ∧
    (serverAdd s y).1.deletions = s.deletions ∧
    getEpoch (serverAdd s y).1 = getEpoch s ∧
    (serverAdd s y).1.pubWitnessKey = s.pubWitnessKey ∧
    (serverAdd s y).1.pubSignKey = s.pubSignKey ∧
    (serverDelete s y).1.accumulators.length =
      s.accumulators.length +
        (if (lookupW s.allWitnesses y).isSome then 1 else 0) ∧
    (serverDelete s y).1.deletions.length =
      s.deletions.length +
        (if (lookupW s.allWitnesses y).isSome then 1 else 0) ∧
    (serverQuickDelete s y).1.accumulators.length =
      s.accumulators.length +
        (if (lookupW s.allWitnesses y).isSome then 1 else 0) ∧
    (serverQuickDelete s y).1.deletions.length =
      s.deletions.length +
        (if (lookupW s.allWitnesses y).isSome then 1 else 0) ∧
    ((lookupW s.allWitnesses y).isSome = false →
      (serverDelete s y).1 = s ∧ (serverQuickDelete s y).1 = s) := by
  have hadd : (serverAdd s y).1.accumulators = s.accumulators ∧
      (serverAdd s y).1.deletions = s.deletions ∧
      getEpoch (serverAdd s y).1 = getEpoch s ∧
      (serverAdd s y).1.pubWitnessKey = s.pubWitnessKey ∧
      (serverAdd s y).1.pubSignKey = s.pubSignKey := by
    by_cases hmem : (lookupW s.allWitnesses y).isSome
    · simp [serverAdd, hmem, getEpoch]
    · simp [serverAdd, hmem, getEpoch]
  refine ⟨hadd.1, hadd.2.1, hadd.2.2.1, hadd.2.2.2.1, hadd.2.2.2.2, ?_⟩
  by_cases hmem : (lookupW s.allWitnesses y).isSome
  · rcases Option.isSome_iff_exists.mp hmem with ⟨wit, hl⟩
    refine ⟨?_, ?_, ?_, ?_, ?_⟩
    · simp [serverDelete, hl, hmem]
    · simp [serverDelete, hl, hmem]
    · simp [serverQuickDelete, hmem]
    · simp [serverQuickDelete, hmem]
    · intro hno; rw [hno] at hmem; cases hmem
  · have hl : lookupW s.allWitnesses y = none :=
      Option.not_isSome_iff_eq_none.mp hmem
    refine ⟨?_, ?_, ?_, ?_, ?_⟩
    · simp [serverDelete, hl, hmem]
    · simp [serverDelete, hl, hmem]
    · simp [serverQuickDelete, hmem]
    · simp [serverQuickDelete, hmem]
    · intro _; exact ⟨by simp [serverDelete, hl], by simp [serverQuickDelete, hmem]⟩

/-- Witness for C9 (amended): the frame conditions evaluated on a sample
server and user. -/
theorem C9_frame_effect_witness :
    (serverAdd sampleServer 2).1.accumulators = sampleServer.accumulators ∧
    (serverAdd sampleServer 2).1.deletions = sampleServer.deletions ∧
    getEpoch (serverAdd sampleServer 2).1 = getEpoch sampleServer ∧
    (serverAdd sampleServer 2).1.pubWitnessKey = sampleServer.pubWitnessKey ∧
    (serverAdd sampleServer 2).1.pubSignKey = sampleServer.pubSignKey ∧
    (serverDelete sampleServer 2).1.accumulators.length =
      sampleServer.accumulators.length +
        (if (lookupW sampleServer.allWitnesses 2).isSome then 1 else 0) ∧
    (serverDelete sampleServer 2).1.deletions.length =
      sampleServer.deletions.length +
        (if (lookupW sampleServer.allWitnesses 2).isSome then 1 else 0) ∧
    (serverQuickDelete sampleServer 2).1.accumulators.length =
      sampleServer.accumulators.length +
        (if (lookupW sampleServer.allWitnesses 2).isSome then 1 else 0) ∧
    (serverQuickDelete sampleServer 2).1.deletions.length =
      sampleServer.deletions.length +
        (if (lookupW sampleServer.allWitnesses 2).isSome then 1 else 0) ∧
    ((lookupW sampleServer.allWitnesses 2).isSome = false →
      (serverDelete sampleServer 2).1 = sampleServer ∧
        (serverQuickDelete sampleServer 2).1 = sampleServer) :=
  C9_frame_effect sampleServer 2

/-! ## The Shamir layer (src/utils.rs; claims C4, C5)

shamir_share builds its polynomial with the vsss_rs crate (an external
primitive): poly[0] is the secret, the remaining threshold - 1
coefficients are uniformly random, and evaluate is ordinary polynomial
evaluation p(x) = poly[0] + poly[1] x + ....  We model the polynomial by
its list of coefficients (quantifying over the random ones) and Horner
evaluation. -/

/-- Polynomial evaluation p(x) = c0 + c1 x + c2 x^2 + ... for the vsss_rs
coefficient list (external primitive of shamir_share). -/
def polyEval (coeffs : List F) (x : F) : F :=
  coeffs.foldr (fun c acc => c + x * acc) 0

/-- shamir_share: shares (i+1, p(i+1)) for i in 0..num_shares, of the
polynomial with the given coefficient list (coeffs[0] is the secret and
coeffs.length the threshold). -/
def shamirShare (coeffs : List F) (numShares : Nat) : List (F × F) :=
  (List.range numShares).map
    (fun i => (((i + 1 : Nat) : F), polyEval coeffs ((i + 1 : Nat) : F)))

/-- The evaluation point of the i-th share, shares[i].0. -/
def sharePt {α : Type} (shares : List (F × α)) (i : Nat) : F :=
  ((shares.get? i).map Prod.fst).getD 0

/-- shamir_coefficients: the reconstruction coefficients for the first
threshold shares, and, when an extra share is available, the shifted
check coefficients.  Slicing shares[0..threshold] panics when fewer than
threshold shares are given (modelled by none). -/
def shamirCoefficients {α : Type} (threshold : Nat) (shares : List (F × α)) :
    Option (List F × Option (List F)) :=
  if shares.length < threshold then none
  else
    let product := (List.range threshold).foldl
      (fun a i => a * sharePt shares i) 1
    let coefficients := (List.range threshold).map (fun i =>
      (List.range threshold).foldl (fun a ii =>
        a * (if ii = i then (sharePt shares i)⁻¹
            else (sharePt shares ii - sharePt shares i)⁻¹)) product)
    if threshold < shares.length then
      let adjustment := sharePt shares threshold * (sharePt shares 0)⁻¹
      let check := (List.range threshold).map (fun i =>
        if i = 0 then
          (List.range threshold).foldl (fun a ii =>
            if ii = 0 then a
            else a * (sharePt shares ii - sharePt shares threshold)⁻¹)
            (product * sharePt shares 0)
        else
          coefficients.getD i 0 *
            (adjustment * (sharePt shares 0 - sharePt shares i) *
              (sharePt shares threshold - sharePt shares i)⁻¹))
      some (coefficients, some check)
    else some (coefficients, none)

/-- shamir_rebuild_scalar: sum shares[i].1 * coefficients[i]; when check
coefficients are given, recompute through the shifted share set and
return nothing on mismatch. -/
def shamirRebuildScalar (shares : List (F × F)) (coefficients : List F)
    (checkCoefficients : Option (List F)) : Option F :=
  let result := (List.range coefficients.length).foldl
    (fun a i => a + (shares.getD i (0, 0)).2 * coefficients.getD i 0) 0
  match checkCoefficients with
  | some checks =>
    let threshold := coefficients.length
    let checkResult := (List.range threshold).foldl
      (fun a i => if i = 0 then a
        else a + checks.getD i 0 * (shares.getD i (0, 0)).2)
      (checks.getD 0 0 * (shares.getD threshold (0, 0)).2)
    if checkResult = result then some result else none
  | none => some result

/-- shamir_rebuild_point: the same reconstruction on G1 shares (exponent
model). -/
def shamirRebuildPoint (shares : List (F × F)) (coefficients : List F)
    (checkCoefficients : Option (List F)) : Option F :=
  shamirRebuildScalar shares coefficients checkCoefficients

/-- The precomputed Lagrange coefficient of the spec:
L_i = (prod_k x_k) * x_i^-1 * prod_of j distinct from i of (x_j - x_i)^-1,
over the first t evaluation points. -/
def lagrangeL (x : Nat → F) (t i : Nat) : F :=
  (∏ k ∈ Finset.range t, x k) * (x i)⁻¹ *
    ∏ j ∈ (Finset.range t).erase i, (x j - x i)⁻¹

theorem foldl_add_range (f : Nat → F) :
    ∀ (n : Nat) (init : F),
      (List.range n).foldl (fun a i => a + f i) init =
        init + ∑ i ∈ Finset.range n, f i := by
  intro n
  induction n with
  | zero => intro init; simp
  | succ n ih =>
    intro init
    rw [List.range_succ, List.foldl_append, ih, Finset.sum_range_succ]
    simp [add_assoc]

theorem foldl_mul_range (f : Nat → F) :
    ∀ (n : Nat) (init : F),
      (List.range n).foldl (fun a i => a * f i) init =
        init * ∏ i ∈ Finset.range n, f i := by
  intro n
  induction n with
  | zero => intro init; simp
  | succ n ih =>
    intro init
    rw [List.range_succ, List.foldl_append, ih, Finset.prod_range_succ]
    simp [mul_assoc]

theorem mapRange_getD {β : Type} (f : Nat → β) (n i : Nat) (d : β)
    (h : i < n) : ((List.range n).map f).getD i d = f i := by
  rw [List.getD_eq_getElem?_getD, List.getElem?_map, List.getElem?_range h]
  rfl

theorem polyEval_eq_sum (coeffs : List F) (x : F) :
    polyEval coeffs x =
      ∑ k ∈ Finset.range coeffs.length, coeffs.getD k 0 * x ^ k := by
  induction coeffs with
  | nil => simp [polyEval]
  | cons c cs ih =>
    show c + x * polyEval cs x = _
    rw [ih, Finset.mul_sum, List.length_cons, Finset.sum_range_succ']
    simp only [List.getD_cons_succ, List.getD_cons_zero, pow_zero, mul_one]
    rw [add_comm]
    congr 1
    apply Finset.sum_congr rfl
    intro k _
    ring

theorem polyEval_zero (coeffs : List F) :
    polyEval coeffs 0 = coeffs.getD 0 0 := by
  cases coeffs with
  | nil => simp [polyEval]
  | cons c cs => show c + 0 * polyEval cs 0 = _; simp

theorem shamirShare_length (coeffs : List F) (n : Nat) :
    (shamirShare coeffs n).length = n := by
  simp [shamirShare]

theorem shamirShare_getD (coeffs : List F) (n i : Nat) (h : i < n) :
    (shamirShare coeffs n).getD i (0, 0) =
      (((i + 1 : Nat) : F), polyEval coeffs ((i + 1 : Nat) : F)) := by
  unfold shamirShare
  exact mapRange_getD
    (fun i => (((i + 1 : Nat) : F), polyEval coeffs ((i + 1 : Nat) : F))) n i _ h

theorem sharePt_shamirShare (coeffs : List F) (n i : Nat) (h : i < n) :
    sharePt (shamirShare coeffs n) i = ((i + 1 : Nat) : F) := by
  unfold sharePt shamirShare
  rw [List.get?_eq_getElem?, List.getElem?_map, List.getElem?_range h]
  rfl

/-- The inner double loop of shamir_coefficients computes the compact
Lagrange coefficient of the spec. -/
theorem coeffAt_eq_lagrangeL (x : Nat → F) (t j : Nat) (hj : j < t) :
    (List.range t).foldl (fun a ii =>
        a * (if ii = j then (x j)⁻¹ else (x ii - x j)⁻¹))
      ((List.range t).foldl (fun a i => a * x i) 1) = lagrangeL x t j := by
  rw [foldl_mul_range, foldl_mul_range, one_mul]
  unfold lagrangeL
  rw [← Finset.mul_prod_erase (Finset.range t)
    (fun ii => if ii = j then (x j)⁻¹ else (x ii - x j)⁻¹)
    (Finset.mem_range.mpr hj)]
  simp only [if_pos rfl]
  rw [mul_assoc]
  congr 1
  congr 1
  apply Finset.prod_congr rfl
  intro ii hii
  rw [if_neg (Finset.mem_erase.mp hii).1]

/-- The coefficient list produced by shamir_coefficients matches the
spec's compact Lagrange formula entrywise. -/
theorem shamirCoefficients_eq_lagrangeL {α : Type} (t : Nat)
    (shares : List (F × α)) (hlen : t ≤ shares.length) :
    ∃ cs chk, shamirCoefficients t shares = some (cs, chk) ∧
      cs.length = t ∧
      ∀ i, i < t → cs.getD i 0 = lagrangeL (sharePt shares) t i := by
  have hnotlt : ¬ shares.length < t := not_lt.mpr hlen
  unfold shamirCoefficients
  simp only [hnotlt, if_false]
  set x := sharePt shares with hx
  have hcs : ∀ j < t, ((List.range t).map (fun i =>
      (List.range t).foldl (fun a ii =>
        a * (if ii = i then (x i)⁻¹ else (x ii - x i)⁻¹))
        ((List.range t).foldl (fun a i => a * x i) 1))).getD j 0 =
      lagrangeL x t j := by
    intro j hj
    rw [mapRange_getD _ t j _ hj]
    exact coeffAt_eq_lagrangeL x t j hj
  by_cases hmore : t < shares.length
  · simp only [hmore, if_true]
    exact ⟨_, _, rfl, by simp, hcs⟩
  · simp only [hmore, if_false]
    exact ⟨_, _, rfl, by simp, hcs⟩

/-- The spec's Lagrange coefficient only depends on the first t points. -/
theorem lagrangeL_congr (x x' : Nat → F) (t i : Nat)
    (h : ∀ j, j < t → x j = x' j) (hi : i < t) :
    lagrangeL x t i = lagrangeL x' t i := by
  unfold lagrangeL
  rw [h i hi]
  congr 1
  · congr 1
    apply Finset.prod_congr rfl
    intro k hk
    exact h k (Finset.mem_range.mp hk)
  · apply Finset.prod_congr rfl
    intro j hj
    rw [h j (Finset.mem_range.mp (Finset.mem_erase.mp hj).2)]

/-- Claim C4: shamir_share(t, n, S) emits the shares (1, p(1)), ...,
(n, p(n)) of the polynomial p built from the secret and the t - 1 random
coefficients (p(0) = S), and rebuilding the first t shares with the
coefficients from shamir_coefficients recovers S. -/
theorem C4_shamir_roundtrip (t n : Nat) (coeffs : List F)
    (ht : 1 ≤ t) (htn : t ≤ n) (hlen : coeffs.length = t)
    (hinj : ∀ i j : Nat, i < t → j < t →
      ((i + 1 : Nat) : F) = ((j + 1 : Nat) : F) → i = j)
    (hnz : ∀ i : Nat, i < t → ((i + 1 : Nat) : F) ≠ 0) :
    shamirShare coeffs n = (List.range n).map
        (fun i => (((i + 1 : Nat) : F), polyEval coeffs ((i + 1 : Nat) : F))) ∧
    polyEval coeffs 0 = coeffs.getD 0 0 ∧
    ∃ cs chk, shamirCoefficients t (shamirShare coeffs n) = some (cs, chk) ∧
      shamirRebuildScalar (shamirShare coeffs n) cs none =
        some (coeffs.getD 0 0) := by
  refine ⟨rfl, polyEval_zero coeffs, ?_⟩
  set v : Nat → F := fun i => ((i + 1 : Nat) : F) with hv
  have hslen : (shamirShare coeffs n).length = n := shamirShare_length coeffs n
  obtain ⟨cs, chk, heq, hcslen, hcsval⟩ :=
    shamirCoefficients_eq_lagrangeL t (shamirShare coeffs n)
      (le_trans htn (le_of_eq hslen.symm))
  refine ⟨cs, chk, heq, ?_⟩
  have hvs : Set.InjOn v (Finset.range t) := by
    intro a ha b hb hab
    exact hinj a b (by simpa using ha) (by simpa using hb) hab
  set P : Polynomial F :=
    ∑ k ∈ Finset.range t, Polynomial.C (coeffs.getD k 0) * Polynomial.X ^ k
    with hP
  have hdeg : P.degree < (Finset.range t).card := by
    rw [Finset.card_range]
    apply lt_of_le_of_lt (Polynomial.degree_sum_le _ _)
    rw [Finset.sup_lt_iff (by exact WithBot.bot_lt_coe t)]
    intro k hk
    exact lt_of_le_of_lt (Polynomial.degree_C_mul_X_pow_le k _)
      (WithBot.coe_lt_coe.mpr (Finset.mem_range.mp hk))
  have heval : ∀ x : F, P.eval x = polyEval coeffs x := by
    intro x
    rw [polyEval_eq_sum, hlen, hP, Polynomial.eval_finset_sum]
    apply Finset.sum_congr rfl
    intro k _
    simp
  have hbasis : ∀ i, i < t →
      (Lagrange.basis (Finset.range t) v i).eval 0 = lagrangeL v t i := by
    intro i hi
    unfold Lagrange.basis
    rw [Polynomial.eval_prod]
    unfold lagrangeL
    rw [← Finset.mul_prod_erase (Finset.range t) v (Finset.mem_range.mpr hi)]
    have hvi : v i * (v i)⁻¹ = 1 := mul_inv_cancel₀ (hnz i hi)
    calc (∏ j ∈ (Finset.range t).erase i,
            (Lagrange.basisDivisor (v i) (v j)).eval 0)
        = ∏ j ∈ (Finset.range t).erase i, v j * (v j - v i)⁻¹ := by
          apply Finset.prod_congr rfl
          intro j hj
          simp only [Lagrange.basisDivisor, Polynomial.eval_mul,
            Polynomial.eval_C, Polynomial.eval_sub, Polynomial.eval_X]
          have hsub : (v i - v j)⁻¹ = -(v j - v i)⁻¹ := by
            rw [← inv_neg, neg_sub]
          rw [hsub]
          ring
      _ = (∏ j ∈ (Finset.range t).erase i, v j) *
            ∏ j ∈ (Finset.range t).erase i, (v j - v i)⁻¹ := by
          rw [Finset.prod_mul_distrib]
      _ = v i * (∏ j ∈ (Finset.range t).erase i, v j) * (v i)⁻¹ *
            ∏ j ∈ (Finset.range t).erase i, (v j - v i)⁻¹ := by
          rw [mul_comm (v i), mul_assoc _ (v i), hvi, mul_one]
  have hinterp := Lagrange.eq_interpolate (v := v) (f := P) hvs hdeg
  have hP0 : P.eval 0 = coeffs.getD 0 0 := by
    rw [heval 0, polyEval_zero]
  unfold shamirRebuildScalar
  simp only
  congr 1
  rw [foldl_add_range, zero_add, hcslen]
  have hsum : ∀ i ∈ Finset.range t,
      ((shamirShare coeffs n).getD i (0, 0)).2 * cs.getD i 0 =
        (P.eval (v i)) * (Lagrange.basis (Finset.range t) v i).eval 0 := by
    intro i hi
    have hit : i < t := Finset.mem_range.mp hi
    have hin : i < n := lt_of_lt_of_le hit htn
    rw [shamirShare_getD coeffs n i hin, hcsval i hit, hbasis i hit]
    rw [heval]
    congr 1
    exact (lagrangeL_congr (sharePt (shamirShare coeffs n)) v t i
      (fun j hj => sharePt_shamirShare coeffs n j (lt_of_lt_of_le hj htn))
      hit)
  rw [Finset.sum_congr rfl hsum]
  have hi0 : Polynomial.eval 0 ((Lagrange.interpolate (Finset.range t) v)
        fun i => Polynomial.eval (v i) P) =
      ∑ i ∈ Finset.range t,
        P.eval (v i) * (Lagrange.basis (Finset.range t) v i).eval 0 := by
    rw [Lagrange.interpolate_apply, Polynomial.eval_finset_sum]
    apply Finset.sum_congr rfl
    intro i _
    rw [Polynomial.eval_mul, Polynomial.eval_C]
  rw [← hi0, ← hinterp, hP0]

/-- Witness for C4: threshold 2, 3 shares, secret 4 and random coefficient
2 over the 5-element field; the rebuilt value is the secret. -/
theorem C4_shamir_roundtrip_witness :
    shamirShare [(4 : Fin 5), 2] 3 = (List.range 3).map
        (fun i => (((i + 1 : Nat) : Fin 5),
          polyEval [(4 : Fin 5), 2] ((i + 1 : Nat) : Fin 5))) ∧
    polyEval [(4 : Fin 5), 2] 0 = ([(4 : Fin 5), 2]).getD 0 0 ∧
    ∃ cs chk,
      shamirCoefficients 2 (shamirShare [(4 : Fin 5), 2] 3) = some (cs, chk) ∧
      shamirRebuildScalar (shamirShare [(4 : Fin 5), 2] 3) cs none =
        some (([(4 : Fin 5), 2]).getD 0 0) :=
  C4_shamir_roundtrip 2 3 [(4 : Fin 5), 2] (by norm_num) (by norm_num) rfl
    (by intro i j hi hj h
        interval_cases i <;> interval_cases j <;> revert h <;> decide)
    (by intro i hi
        interval_cases i <;> decide)

/-! ## The Shamir validity-check coefficients (claim C5) -/

theorem range_eq_insert_Ico (t : Nat) (ht : 1 ≤ t) :
    Finset.range t = insert 0 (Finset.Ico 1 t) := by
  ext k
  simp only [Finset.mem_range, Finset.mem_insert, Finset.mem_Ico]
  omega

theorem erase_range_zero (t : Nat) :
    (Finset.range t).erase 0 = Finset.Ico 1 t := by
  ext k
  simp only [Finset.mem_erase, Finset.mem_range, Finset.mem_Ico]
  omega

/-- Claim C5 as amended: over pairwise-distinct non-zero points, the check
coefficients of shamir_coefficients are
check[0] = L_0 * x_0^2 * prod over i in 1..t of (x_i - x_0)
divided by the product over i in 1..t of (x_i - x_t)
(the claim's formula lacks the factor prod of (x_i - x_0)), and
check[i>0] = L_i * (x_t / x_0) * (x_0 - x_i) / (x_t - x_i) exactly as
claimed. -/
theorem C5_check_coefficients {α : Type} (t : Nat) (shares : List (F × α))
    (ht : 1 ≤ t) (hlen : t < shares.length)
    (hnz : ∀ i, i ≤ t → sharePt shares i ≠ 0)
    (hdist : ∀ i j, i ≤ t → j ≤ t → i ≠ j →
      sharePt shares i ≠ sharePt shares j) :
    ∃ cs ch, shamirCoefficients t shares = some (cs, some ch) ∧
      ch.getD 0 0 =
        lagrangeL (sharePt shares) t 0 * (sharePt shares 0) ^ 2 *
          (∏ i ∈ Finset.Ico 1 t, (sharePt shares i - sharePt shares 0)) *
          (∏ i ∈ Finset.Ico 1 t, (sharePt shares i - sharePt shares t))⁻¹ ∧
      ∀ i, 0 < i → i < t →
        ch.getD i 0 =
          lagrangeL (sharePt shares) t i *
            (sharePt shares t * (sharePt shares 0)⁻¹) *
            (sharePt shares 0 - sharePt shares i) *
            (sharePt shares t - sharePt shares i)⁻¹ := by
  have hnotlt : ¬ shares.length < t := not_lt.mpr (le_of_lt hlen)
  set x := sharePt shares with hx
  unfold shamirCoefficients
  simp only [if_neg hnotlt, if_pos hlen]
  refine ⟨_, _, rfl, ?_, ?_⟩
  · rw [mapRange_getD _ t 0 _ ht, if_pos rfl]
    have hfun : (fun (a : F) ii => if ii = 0 then a else a * (x ii - x t)⁻¹) =
        (fun (a : F) ii => a * (if ii = 0 then 1 else (x ii - x t)⁻¹)) := by
      funext a ii
      by_cases hii : ii = 0 <;> simp [hii]
    rw [hfun, foldl_mul_range, foldl_mul_range, one_mul]
    have hprodif : (∏ ii ∈ Finset.range t,
        (if ii = 0 then (1 : F) else (x ii - x t)⁻¹)) =
        ∏ ii ∈ Finset.Ico 1 t, (x ii - x t)⁻¹ := by
      rw [range_eq_insert_Ico t ht,
        Finset.prod_insert (by simp [Finset.mem_Ico]), if_pos rfl, one_mul]
      apply Finset.prod_congr rfl
      intro i hi
      have hine : i ≠ 0 := by
        have := (Finset.mem_Ico.mp hi).1
        omega
      rw [if_neg hine]
    rw [hprodif]
    unfold lagrangeL
    rw [erase_range_zero]
    have hx0 : x 0 ≠ 0 := hnz 0 (by omega)
    have h1 : (x 0)⁻¹ * (x 0) ^ 2 = x 0 := by
      rw [sq, ← mul_assoc, inv_mul_cancel₀ hx0, one_mul]
    have h2 : (∏ j ∈ Finset.Ico 1 t, (x j - x 0)⁻¹) *
        (∏ j ∈ Finset.Ico 1 t, (x j - x 0)) = 1 := by
      rw [← Finset.prod_mul_distrib]
      apply Finset.prod_eq_one
      intro j hj
      rcases Finset.mem_Ico.mp hj with ⟨hj1, hjt⟩
      exact inv_mul_cancel₀ (sub_ne_zero.mpr
        (hdist j 0 (le_of_lt hjt) (by omega) (by omega)))
    have h3 : (∏ ii ∈ Finset.Ico 1 t, (x ii - x t)⁻¹) =
        (∏ ii ∈ Finset.Ico 1 t, (x ii - x t))⁻¹ := by
      rw [← Finset.prod_inv_distrib]
    calc (∏ i ∈ Finset.range t, x i) * x 0 *
          ∏ ii ∈ Finset.Ico 1 t, (x ii - x t)⁻¹
        = (∏ i ∈ Finset.range t, x i) * ((x 0)⁻¹ * (x 0) ^ 2) *
            (((∏ j ∈ Finset.Ico 1 t, (x j - x 0)⁻¹) *
              (∏ j ∈ Finset.Ico 1 t, (x j - x 0)))) *
            ∏ ii ∈ Finset.Ico 1 t, (x ii - x t)⁻¹ := by
          rw [h1, h2, mul_one]
      _ = (∏ i ∈ Finset.range t, x i) * (x 0)⁻¹ *
            (∏ j ∈ Finset.Ico 1 t, (x j - x 0)⁻¹) * (x 0) ^ 2 *
            (∏ j ∈ Finset.Ico 1 t, (x j - x 0)) *
            (∏ ii ∈ Finset.Ico 1 t, (x ii - x t))⁻¹ := by
          rw [← h3]
          ring
  · intro i h0i hit
    have hine : i ≠ 0 := by omega
    rw [mapRange_getD _ t i _ hit, if_neg hine, mapRange_getD _ t i _ hit,
      coeffAt_eq_lagrangeL x t i hit]
    ring

/-- Four shares at the points 1, 2, 3, 4 over the 5-element field. -/
def sampleShares4 : List (Fin 5 × Fin 5) := [(1, 0), (2, 0), (3, 0), (4, 0)]

/-- Counterexample for C5: at threshold 3 with points 1, 2, 3, 4, the
check coefficient check[0] computed by shamir_coefficients (value 3) is
not L_0 * x_0^2 / prod over i in 1..t of (x_i - x_t) (value 4): the
claimed formula is missing the factor prod over i in 1..t of (x_i - x_0). -/
theorem C5_counterexample :
    (shamirCoefficients 3 sampleShares4).map (fun p => p.2.isSome) =
        some true ∧
      ¬ ((((shamirCoefficients 3 sampleShares4).bind
            (fun p => p.2)).getD []).getD 0 0 =
          lagrangeL (sharePt sampleShares4) 3 0 *
            (sharePt sampleShares4 0) ^ 2 *
            (∏ i ∈ Finset.Ico 1 3,
              (sharePt sampleShares4 i - sharePt sampleShares4 3))⁻¹) := by
  constructor
  · decide
  · decide

/-- Witness for C5 (amended): the amended check-coefficient formulas
evaluated at threshold 2 on the sample shares. -/
theorem C5_check_coefficients_witness :
    ∃ cs ch, shamirCoefficients 2 sampleShares4 = some (cs, some ch) ∧
      ch.getD 0 0 =
        lagrangeL (sharePt sampleShares4) 2 0 * (sharePt sampleShares4 0) ^ 2 *
          (∏ i ∈ Finset.Ico 1 2,
            (sharePt sampleShares4 i - sharePt sampleShares4 0)) *
          (∏ i ∈ Finset.Ico 1 2,
            (sharePt sampleShares4 i - sharePt sampleShares4 2))⁻¹ ∧
      ∀ i, 0 < i → i < 2 →
        ch.getD i 0 =
          lagrangeL (sharePt sampleShares4) 2 i *
            (sharePt sampleShares4 2 * (sharePt sampleShares4 0)⁻¹) *
            (sharePt sampleShares4 0 - sharePt sampleShares4 i) *
            (sharePt sampleShares4 2 - sharePt sampleShares4 i)⁻¹ :=
  C5_check_coefficients 2 sampleShares4 (by norm_num) (by decide)
    (by intro i hi
        interval_cases i <;> decide)
    (by intro i j hi hj hne
        interval_cases i <;> interval_cases j <;> revert hne <;> decide)

/-! ## The accumulator engine (src/accumulator/key.rs, acc.rs; claims C3, C7)

The dense scalar polynomial type lives in accumulator/utils.rs, which is
not part of the sources at hand; it is modelled from the spec (section
4.1): an owned growable coefficient list with push, in-place
multiplication by a two-term linear factor [c, -1], in-place scalar
multiplication, and in-place growing addition and subtraction. -/

/-- Modelled from the spec: in-place growing polynomial addition of the
missing accumulator/utils.rs Polynomial type. -/
def polyAdd : List F → List F → List F
  | [], q => q
  | p, [] => p
  | a :: p, b :: q => (a + b) :: polyAdd p q

/-- Modelled from the spec: in-place scalar multiplication of the missing
accumulator/utils.rs Polynomial type. -/
def polyScale (c : F) (p : List F) : List F :=
  p.map (fun a => a * c)

/-- Modelled from the spec: in-place growing polynomial subtraction of the
missing accumulator/utils.rs Polynomial type. -/
def polySub (p q : List F) : List F :=
  polyAdd p (q.map Neg.neg)

/-- Helper for the linear-factor product: previous coefficient is carried
through the list. -/
def mulLinAux (c prev : F) : List F → List F
  | [] => [0 - prev]
  | a :: rest => (c * a - prev) :: mulLinAux c a rest

/-- Modelled from the spec: standard multiplication of a polynomial by the
two-term linear factor [c, -1], that is by (c - x), of the missing
accumulator/utils.rs Polynomial type. -/
def polyMulLinear (c : F) (p : List F) : List F :=
  mulLinAux c 0 p

/-- The coefficient of x^k (zero beyond the stored length). -/
def coeffAt (p : List F) (k : Nat) : F := p.getD k 0

/-- SecretKey::batch_additions: the scalar product of (y + alpha) over the
list. -/
def batchAdditions (alpha : F) (l : List F) : F :=
  (l.map (fun y => y + alpha)).foldl (fun a y => a * y) 1

/-- SecretKey::batch_deletions: the inverse of batch_additions. -/
def batchDeletions (alpha : F) (l : List F) : F :=
  (batchAdditions alpha l)⁻¹

/-- SecretKey::create_coefficients, translated loop for loop: build v_D,
multiply it by the batched additions, build v_A, return v_A - v_D. -/
def createCoefficients (alpha : F) (additions deletions : List F) : List F :=
  let vD0 := (List.range deletions.length).foldl (fun vd s =>
    let c := batchDeletions alpha (deletions.take (s + 1))
    let poly := (deletions.take s).foldl (fun p j => polyMulLinear j p) [1]
    polyAdd vd (polyScale c poly)) []
  let vD := polyScale (batchAdditions alpha additions) vD0
  let vA := (List.range additions.length).foldl (fun va s =>
    let c := if s = 0 then 1 else batchAdditions alpha (additions.take s)
    let poly := (additions.drop (s + 1)).foldl (fun p j => polyMulLinear j p) [1]
    polyAdd va (polyScale c poly)) []
  polySub vA vD

/-- Accumulator::update (via update_assign): the new accumulator value is
V * batch_additions(A) * batch_deletions(D), and the returned coefficient
vector scales each create_coefficients entry by the prior V. -/
def accUpdate (v alpha : F) (additions deletions : List F) : F × List F :=
  let a := batchAdditions alpha additions
  let d := batchDeletions alpha deletions
  let ad := a * d
  let coefficients := (createCoefficients alpha additions deletions).map
    (fun c => v * c)
  (v * ad, coefficients)

/-- The product of the linear factors (c - x) over a list, written as a
plain recursion: the reference form of the spec's products. -/
def linProdR : List F → List F
  | [] => [1]
  | c :: l => polyMulLinear c (linProdR l)

/-- The spec's batch-update polynomial
v_A(x) = sum over s of (prod of (a_i + alpha) for i before s) times
(prod of (a_j - x) for j after s). -/
def vApoly (alpha : F) (additions : List F) : List F :=
  ((List.range additions.length).map (fun s =>
    polyScale (batchAdditions alpha (additions.take s))
      (linProdR (additions.drop (s + 1))))).foldr polyAdd []

/-- The spec's batch-update polynomial
v_D(x) = sum over s of (prod of (d_i + alpha) for i up to s) inverse times
(prod of (d_j - x) for j before s). -/
def vDpoly (alpha : F) (deletions : List F) : List F :=
  ((List.range deletions.length).map (fun s =>
    polyScale (batchDeletions alpha (deletions.take (s + 1)))
      (linProdR (deletions.take s)))).foldr polyAdd []

theorem polyAdd_nil_left (q : List F) : polyAdd [] q = q := by
  cases q <;> rfl

theorem polyAdd_nil_right (p : List F) : polyAdd p [] = p := by
  cases p <;> rfl

theorem polyAdd_assoc (p q r : List F) :
    polyAdd (polyAdd p q) r = polyAdd p (polyAdd q r) := by
  induction p generalizing q r with
  | nil => simp [polyAdd_nil_left]
  | cons a p ih =>
    cases q with
    | nil => simp [polyAdd_nil_left, polyAdd_nil_right]
    | cons b q =>
      cases r with
      | nil => simp [polyAdd_nil_right]
      | cons c r =>
        show (a + b + c) :: polyAdd (polyAdd p q) r =
          (a + (b + c)) :: polyAdd p (polyAdd q r)
        rw [add_assoc, ih]

theorem coeffAt_polyAdd (p q : List F) (k : Nat) :
    coeffAt (polyAdd p q) k = coeffAt p k + coeffAt q k := by
  induction p generalizing q k with
  | nil =>
    rw [polyAdd_nil_left]
    show coeffAt q k = coeffAt [] k + coeffAt q k
    simp [coeffAt]
  | cons a p ih =>
    cases q with
    | nil =>
      rw [polyAdd_nil_right]
      simp [coeffAt]
    | cons b q =>
      cases k with
      | zero => simp [polyAdd, coeffAt]
      | succ k =>
        show coeffAt (polyAdd p q) k = _
        rw [ih]
        rfl

theorem length_polyAdd (p q : List F) :
    (polyAdd p q).length = max p.length q.length := by
  induction p generalizing q with
  | nil => simp [polyAdd_nil_left]
  | cons a p ih =>
    cases q with
    | nil => simp [polyAdd_nil_right]
    | cons b q =>
      show (polyAdd p q).length + 1 = _
      rw [ih]
      simp [Nat.succ_max_succ]

theorem coeffAt_polyScale (c : F) (p : List F) (k : Nat) :
    coeffAt (polyScale c p) k = coeffAt p k * c := by
  induction p generalizing k with
  | nil => simp [polyScale, coeffAt]
  | cons a p ih =>
    cases k with
    | zero => rfl
    | succ k => exact ih k

theorem length_polyScale (c : F) (p : List F) :
    (polyScale c p).length = p.length := by
  simp [polyScale]

theorem coeffAt_negMap (q : List F) (k : Nat) :
    coeffAt (q.map Neg.neg) k = -(coeffAt q k) := by
  induction q generalizing k with
  | nil => simp [coeffAt]
  | cons b q ih =>
    cases k with
    | zero => rfl
    | succ k => exact ih k

theorem length_mulLinAux (c prev : F) (p : List F) :
    (mulLinAux c prev p).length = p.length + 1 := by
  induction p generalizing prev with
  | nil => rfl
  | cons a p ih =>
    show (mulLinAux c a p).length + 1 = _
    rw [ih]
    rfl

theorem length_polyMulLinear (c : F) (p : List F) :
    (polyMulLinear c p).length = p.length + 1 :=
  length_mulLinAux c 0 p

theorem coeffAt_mulLinAux_zero (c prev : F) (p : List F) :
    coeffAt (mulLinAux c prev p) 0 = c * coeffAt p 0 - prev := by
  cases p with
  | nil => simp [mulLinAux, coeffAt]
  | cons a p => rfl

theorem coeffAt_mulLinAux_succ (c prev : F) (p : List F) (k : Nat) :
    coeffAt (mulLinAux c prev p) (k + 1) =
      c * coeffAt p (k + 1) - coeffAt p k := by
  induction p generalizing prev k with
  | nil => simp [mulLinAux, coeffAt]
  | cons a p ih =>
    cases k with
    | zero =>
      show coeffAt (mulLinAux c a p) 0 = _
      rw [coeffAt_mulLinAux_zero]
      rfl
    | succ k =>
      show coeffAt (mulLinAux c a p) (k + 1) = _
      rw [ih]
      rfl

theorem polyExt {p q : List F} (hlen : p.length = q.length)
    (h : ∀ k, coeffAt p k = coeffAt q k) : p = q := by
  apply List.ext_getElem?
  intro n
  rcases lt_or_ge n p.length with h1 | h1
  · have h2 : n < q.length := hlen ▸ h1
    rw [List.getElem?_eq_getElem h1, List.getElem?_eq_getElem h2]
    have := h n
    rw [coeffAt, coeffAt, List.getD_eq_get p 0 h1, List.getD_eq_get q 0 h2]
      at this
    exact congrArg some this
  · rw [List.getElem?_eq_none h1, List.getElem?_eq_none (hlen ▸ h1)]

theorem polyMulLinear_comm (a b : F) (p : List F) :
    polyMulLinear a (polyMulLinear b p) = polyMulLinear b (polyMulLinear a p) := by
  apply polyExt
  · rw [length_polyMulLinear, length_polyMulLinear,
      length_polyMulLinear, length_polyMulLinear]
  · intro k
    unfold polyMulLinear
    cases k with
    | zero =>
      rw [coeffAt_mulLinAux_zero, coeffAt_mulLinAux_zero,
        coeffAt_mulLinAux_zero, coeffAt_mulLinAux_zero]
      ring
    | succ k =>
      cases k with
      | zero =>
        rw [coeffAt_mulLinAux_succ, coeffAt_mulLinAux_succ,
          coeffAt_mulLinAux_succ, coeffAt_mulLinAux_succ,
          coeffAt_mulLinAux_zero, coeffAt_mulLinAux_zero]
        ring
      | succ k =>
        rw [coeffAt_mulLinAux_succ, coeffAt_mulLinAux_succ,
          coeffAt_mulLinAux_succ, coeffAt_mulLinAux_succ,
          coeffAt_mulLinAux_succ, coeffAt_mulLinAux_succ]
        ring

theorem linProdR_mulLinear (l : List F) (c : F) (acc : List F) :
    l.foldl (fun p j => polyMulLinear j p) (polyMulLinear c acc) =
      polyMulLinear c (l.foldl (fun p j => polyMulLinear j p) acc) := by
  induction l generalizing acc with
  | nil => rfl
  | cons d l ih =>
    show l.foldl _ (polyMulLinear d (polyMulLinear c acc)) = _
    rw [polyMulLinear_comm d c, ih]
    rfl

theorem foldl_linProd (l : List F) :
    l.foldl (fun p j => polyMulLinear j p) [1] = linProdR l := by
  induction l with
  | nil => rfl
  | cons c l ih =>
    show l.foldl _ (polyMulLinear c [1]) = polyMulLinear c (linProdR l)
    rw [linProdR_mulLinear, ih]

theorem foldl_polyAdd_eq_foldr (f : Nat → List F) (ls : List Nat) :
    ∀ acc : List F,
      ls.foldl (fun va s => polyAdd va (f s)) acc =
        polyAdd acc ((ls.map f).foldr polyAdd []) := by
  induction ls with
  | nil => intro acc; simp [polyAdd_nil_right]
  | cons s ls ih =>
    intro acc
    show ls.foldl _ (polyAdd acc (f s)) = _
    rw [ih, polyAdd_assoc]
    rfl

/-- The imperative loops of create_coefficients compute exactly the
coefficients of the spec polynomial v_A - v_D * batch_additions(A). -/
theorem createCoefficients_eq_spec (alpha : F) (A D : List F) :
    createCoefficients alpha A D =
      polySub (vApoly alpha A)
        (polyScale (batchAdditions alpha A) (vDpoly alpha D)) := by
  unfold createCoefficients vApoly vDpoly
  simp only [foldl_polyAdd_eq_foldr, polyAdd_nil_left, foldl_linProd]
  have hifs : (List.range A.length).map (fun s =>
      polyScale (if s = 0 then (1 : F) else batchAdditions alpha (A.take s))
        (linProdR (A.drop (s + 1)))) =
      (List.range A.length).map (fun s =>
        polyScale (batchAdditions alpha (A.take s))
          (linProdR (A.drop (s + 1)))) := by
    apply List.map_congr_left
    intro s hs
    rcases Nat.eq_zero_or_pos s with rfl | hpos
    · simp [batchAdditions]
    · rw [if_neg (Nat.pos_iff_ne_zero.mp hpos)]
  rw [hifs]

/-- Claim C3: Accumulator::update returns
V' = V * prod(a + alpha) * (prod(d + alpha))^-1 together with the vector
whose k-th entry is V * c_k, c_k the k-th coefficient of
v_A - v_D * prod(a + alpha), with V the prior accumulator. -/
theorem C3_accumulator_update (v alpha : F) (A D : List F)
    (hD : ∀ d ∈ D, d + alpha ≠ 0) :
    (accUpdate v alpha A D).1 =
      v * batchAdditions alpha A * (batchAdditions alpha D)⁻¹ ∧
    (accUpdate v alpha A D).2 =
      (polySub (vApoly alpha A)
        (polyScale (batchAdditions alpha A) (vDpoly alpha D))).map
        (fun c => v * c) := by
  constructor
  · show v * (batchAdditions alpha A * (batchAdditions alpha D)⁻¹) = _
    rw [mul_assoc]
  · show (createCoefficients alpha A D).map (fun c => v * c) = _
    rw [createCoefficients_eq_spec]

/-- Witness for C3: concrete evaluation with V = 2, alpha = 1, A = [2],
D = [3] over the 5-element field. -/
theorem C3_accumulator_update_witness :
    (accUpdate (2 : Fin 5) 1 [2] [3]).1 =
      2 * batchAdditions 1 [2] * (batchAdditions 1 [3])⁻¹ ∧
    (accUpdate (2 : Fin 5) 1 [2] [3]).2 =
      (polySub (vApoly 1 [2])
        (polyScale (batchAdditions 1 [2]) (vDpoly 1 [3]))).map
        (fun c => 2 * c) :=
  C3_accumulator_update 2 1 [2] [3] (by decide)

/-! ## The coefficient-vector length (claim C7) -/

theorem length_linProdR (l : List F) : (linProdR l).length = l.length + 1 := by
  induction l with
  | nil => rfl
  | cons c l ih =>
    show (polyMulLinear c (linProdR l)).length = _
    rw [length_polyMulLinear, ih]
    rfl

theorem length_foldr_polyAdd (ls : List (List F)) :
    (ls.foldr polyAdd []).length =
      ls.foldr (fun p m => max p.length m) 0 := by
  induction ls with
  | nil => rfl
  | cons p ls ih =>
    show (polyAdd p (ls.foldr polyAdd [])).length = _
    rw [length_polyAdd, ih]
    rfl

theorem foldr_max_le_g (g : Nat → Nat) (b : Nat) :
    ∀ l : List Nat, (∀ x ∈ l, g x ≤ b) →
      l.foldr (fun s m => max (g s) m) 0 ≤ b := by
  intro l
  induction l with
  | nil => intro _; exact Nat.zero_le b
  | cons x l ih =>
    intro h
    show max (g x) _ ≤ b
    exact max_le (h x (List.mem_cons_self x l))
      (ih fun y hy => h y (List.mem_cons_of_mem x hy))

theorem le_foldr_max_g (g : Nat → Nat) :
    ∀ (l : List Nat) (x : Nat), x ∈ l →
      g x ≤ l.foldr (fun s m => max (g s) m) 0 := by
  intro l
  induction l with
  | nil => intro x hx; cases hx
  | cons y l ih =>
    intro x hx
    rcases List.mem_cons.mp hx with rfl | hx'
    · exact le_max_left _ _
    · exact le_trans (ih x hx') (le_max_right _ _)

theorem foldr_max_g_eq (g : Nat → Nat) (n b : Nat)
    (hb : ∀ x, x < n → g x ≤ b) (hx : ∃ x, x < n ∧ g x = b) :
    (List.range n).foldr (fun s m => max (g s) m) 0 = b := by
  apply le_antisymm
  · exact foldr_max_le_g g b (List.range n)
      (fun x hxm => hb x (List.mem_range.mp hxm))
  · obtain ⟨x, hxn, hgx⟩ := hx
    exact hgx ▸ le_foldr_max_g g (List.range n) x (List.mem_range.mpr hxn)

theorem length_vApoly (alpha : F) (A : List F) :
    (vApoly alpha A).length = A.length := by
  unfold vApoly
  rw [length_foldr_polyAdd, List.foldr_map]
  have hg : ∀ s : Nat, s < A.length →
      (polyScale (batchAdditions alpha (A.take s))
        (linProdR (A.drop (s + 1)))).length = A.length - s := by
    intro s hs
    rw [length_polyScale, length_linProdR, List.length_drop]
    omega
  rcases Nat.eq_zero_or_pos A.length with h0 | hpos
  · rw [h0]
    simp [List.range_zero]
  · apply foldr_max_g_eq
    · intro x hx
      rw [hg x hx]
      omega
    · exact ⟨0, hpos, by rw [hg 0 hpos]; omega⟩

theorem length_vDpoly (alpha : F) (D : List F) :
    (vDpoly alpha D).length = D.length := by
  unfold vDpoly
  rw [length_foldr_polyAdd, List.foldr_map]
  have hg : ∀ s : Nat, s < D.length →
      (polyScale (batchDeletions alpha (D.take (s + 1)))
        (linProdR (D.take s))).length = s + 1 := by
    intro s hs
    rw [length_polyScale, length_linProdR, List.length_take]
    omega
  rcases Nat.eq_zero_or_pos D.length with h0 | hpos
  · rw [h0]
    simp [List.range_zero]
  · apply foldr_max_g_eq
    · intro x hx
      rw [hg x hx]
      omega
    · exact ⟨D.length - 1, by omega, by rw [hg (D.length - 1) (by omega)]; omega⟩

/-- Counterexample for C7: with one addition and no deletions the
coefficient vector has length 1, not max(1, 0 + 1) - 1 = 0. -/
theorem C7_counterexample :
    ¬ ((createCoefficients (0 : Fin 5) [1] []).length =
        max ([(1 : Fin 5)].length) (([] : List (Fin 5)).length + 1) - 1) := by
  decide

/-- Claim C7 as amended: create_coefficients returns a vector of exactly
max(number of additions, number of deletions) scalar elements; in
particular for 2 additions and 3 deletions the length is 3. -/
theorem C7_coefficients_length (alpha : F) (A D : List F)
    (hD : ∀ d ∈ D, d + alpha ≠ 0) :
    (createCoefficients alpha A D).length = max A.length D.length := by
  rw [createCoefficients_eq_spec]
  unfold polySub
  rw [length_polyAdd, List.length_map, length_polyScale,
    length_vApoly, length_vDpoly]

/-- Witness for C7 (amended), at the test fixture shape: 2 additions and
3 deletions give length 3. -/
theorem C7_coefficients_length_witness :
    (createCoefficients (0 : Fin 5) [2, 3] [1, 2, 3]).length =
      max ([(2 : Fin 5), 3].length) ([(1 : Fin 5), 2, 3].length) :=
  C7_coefficients_length 0 [2, 3] [1, 2, 3] (by decide)

/-! ## The membership zero-knowledge proof (src/witness.rs; claims C2, C6)

The Merlin transcript absorbs, in order, the two public keys, the
accumulator, the four commitment parameters, the proof points U1, U2, R,
T1, T2, Pi1, Pi2, and the caller's ephemeral challenge, and the challenge
scalar is a hash of that data.  Since point serialization is injective, we
model the transcript by the record of absorbed values and quantify over
the hash function. -/

/-- PublicKeys of src/utils.rs (G2 exponents): the witness key Q and the
signing key Q_m. -/
structure PublicKeysW (F : Type) where
  witness_key : F
  sign_key : F
  deriving Repr

/-- The user-side Witness bundle of src/witness.rs: the long-term secret
key, the membership witness C, and the algebraic signature R. -/
structure UserWitness (F : Type) where
  secret_key : F
  witness : F
  signature : F
  deriving Repr

/-- Modelled from the spec and the repository's own tests: the schnorr
response helper of the missing accumulator/utils.rs, called as
schnorr(k[i], secret, challenge).  The sign is forced by the code that is
present: the verifier in witness.rs reconstructs
T_1 = X1 s1 + Y1 s2 + Z1 s3 - R c, which equals the prover's commitment
T_1 = X1 k1 + Y1 k2 + Z1 k3 exactly when s_i = k_i + c * secret, and the
test basic_membership_proof asserts that this reconstruction (and hence
proof verification) succeeds. -/
def schnorr (r v challenge : F) : F := v * challenge + r

/-- Witness::verify: the two pairing checks
e(C, P2 y + Q) = e(V, P2) and e(R, K2 y + Q_m) = e(K1 sk + K0, K2),
each evaluated as a multi-Miller loop with a negated second pairing. -/
def witVerify (accumulator : F) (pk : PublicKeysW F) (params : AccParams F)
    (y : F) (w : UserWitness F) : Bool :=
  decide (pairE w.witness (params.p2 * y + pk.witness_key) -
      pairE accumulator params.p2 = 0) &&
  decide (pairE w.signature (params.k2 * y + pk.sign_key) -
      pairE (params.k1 * w.secret_key + params.k0) params.k2 = 0)

/-- Everything absorbed into the Fiat-Shamir transcript before the
challenge is squeezed, in absorption order. -/
structure ChallengeInput (F E : Type) where
  witnessKey : F
  signKey : F
  accumulator : F
  paramK1 : F
  paramX1 : F
  paramY1 : F
  paramZ1 : F
  u1 : F
  u2 : F
  rPoint : F
  t1 : F
  t2 : F
  pi1 : F
  pi2 : F
  ephemeral : E

/-- MembershipProofCommitting of src/witness.rs: the blinders r[0..3], the
nonces k[0..8], and the commitments. -/
structure MPCommitting (F : Type) where
  r : Fin 3 → F
  k : Fin 8 → F
  u1 : F
  u2 : F
  rPoint : F
  t1 : F
  t2 : F
  pi1 : F
  pi2 : F

/-- MembershipProofCommitting::new with the drawn blinders and nonces made
explicit. -/
def mpcNew (w : UserWitness F) (params : AccParams F) (pk : PublicKeysW F)
    (r : Fin 3 → F) (k : Fin 8 → F) : MPCommitting F :=
  let u1 := w.signature + params.z1 * r 0
  let u2 := w.witness + params.z1 * r 1
  let rPoint := params.x1 * r 0 + params.y1 * r 1 + params.z1 * r 2
  let t1 := params.x1 * k 1 + params.y1 * k 2 + params.z1 * k 3
  let t2 := params.x1 * k 4 + params.y1 * k 5 + params.z1 * k 6 -
    rPoint * k 7
  let pi1 := pairE (params.k1 * k 0 - u1 * k 7) params.k2 +
    pairE params.z1 (params.k2 * k 4 + pk.sign_key * k 1)
  let pi2 := pairE (params.z1 * k 5 - u2 * k 7) params.p2 +
    pairE params.z1 (pk.witness_key * k 2)
  ⟨r, k, u1, u2, rPoint, t1, t2, pi1, pi2⟩

/-- The MembershipProof of src/witness.rs. -/
structure MembershipProofW (F : Type) where
  u1 : F
  u2 : F
  rPoint : F
  challenge : F
  s0 : F
  s1 : F
  s2 : F
  s3 : F
  s4 : F
  s5 : F
  s6 : F
  s7 : F
  deriving Repr

/-- MembershipProofCommitting::gen_proof: the eight schnorr responses for
sk, r[0], r[1], r[2], r[0] y, r[1] y, r[2] y and y. -/
def genProof (mpc : MPCommitting F) (w : UserWitness F) (y c : F) :
    MembershipProofW F :=
  { u1 := mpc.u1
    u2 := mpc.u2
    rPoint := mpc.rPoint
    challenge := c
    s0 := schnorr (mpc.k 0) w.secret_key c
    s1 := schnorr (mpc.k 1) (mpc.r 0) c
    s2 := schnorr (mpc.k 2) (mpc.r 1) c
    s3 := schnorr (mpc.k 3) (mpc.r 2) c
    s4 := schnorr (mpc.k 4) (mpc.r 0 * y) c
    s5 := schnorr (mpc.k 5) (mpc.r 1 * y) c
    s6 := schnorr (mpc.k 6) (mpc.r 2 * y) c
    s7 := schnorr (mpc.k 7) y c }

/-- The prover's transcript contents. -/
def proverChallengeInput {E : Type} (params : AccParams F)
    (pk : PublicKeysW F) (acc : F) (mpc : MPCommitting F) (eph : E) :
    ChallengeInput F E :=
  ⟨pk.witness_key, pk.sign_key, acc, params.k1, params.x1, params.y1,
    params.z1, mpc.u1, mpc.u2, mpc.rPoint, mpc.t1, mpc.t2, mpc.pi1,
    mpc.pi2, eph⟩

/-- Witness::make_membership_proof: verify the witness, commit, squeeze
the challenge, respond. -/
def makeMembershipProof {E : Type} (hash : ChallengeInput F E → F)
    (w : UserWitness F) (y acc : F) (params : AccParams F)
    (pk : PublicKeysW F) (eph : E) (r : Fin 3 → F) (k : Fin 8 → F) :
    Option (MembershipProofW F) :=
  if witVerify acc pk params y w then
    let mpc := mpcNew w params pk r k
    let c := hash (proverChallengeInput params pk acc mpc eph)
    some (genProof mpc w y c)
  else none

/-- Witness::check_membership_proof via
MembershipProof::get_bytes_for_challenge: reconstruct T1, T2, Pi1, Pi2
from the responses, rebuild the transcript, and compare the squeezed
challenge with the proof's challenge. -/
def checkMembershipProof {E : Type} (hash : ChallengeInput F E → F)
    (proof : MembershipProofW F) (params : AccParams F)
    (pk : PublicKeysW F) (acc : F) (eph : E) : Bool :=
  let t1 := params.x1 * proof.s1 + params.y1 * proof.s2 +
    params.z1 * proof.s3 - proof.rPoint * proof.challenge
  let t2 := params.x1 * proof.s4 + params.y1 * proof.s5 +
    params.z1 * proof.s6 - proof.rPoint * proof.s7
  let pi1 := pairE (params.k1 * proof.s0 - proof.u1 * proof.s7 +
      params.z1 * proof.s4 + params.k0 * proof.challenge) params.k2 +
    pairE (params.z1 * proof.s1 - proof.u1 * proof.challenge) pk.sign_key
  let pi2 := pairE (-(proof.u2 * proof.s7) + params.z1 * proof.s5 +
      acc * proof.challenge) params.p2 +
    pairE (params.z1 * proof.s2 - proof.u2 * proof.challenge) pk.witness_key
  let c := hash ⟨pk.witness_key, pk.sign_key, acc, params.k1, params.x1,
    params.y1, params.z1, proof.u1, proof.u2, proof.rPoint, t1, t2, pi1,
    pi2, eph⟩
  decide (c = proof.challenge)

/-- Core of the completeness argument: for any challenge value that the
verifier's rebuilt transcript hashes to, the reconstructed T1, T2, Pi1,
Pi2 coincide with the prover's commitments, so the check accepts. -/
theorem check_of_genProof (params : AccParams F) (pk : PublicKeysW F)
    (acc y : F) (w : UserWitness F) (r : Fin 3 → F) (k : Fin 8 → F)
    (c : F) {E : Type} (hash : ChallengeInput F E → F) (eph : E)
    (h1 : w.witness * (params.p2 * y + pk.witness_key) = acc * params.p2)
    (h2 : w.signature * (params.k2 * y + pk.sign_key) =
      (params.k1 * w.secret_key + params.k0) * params.k2)
    (hhash : hash (proverChallengeInput params pk acc
      (mpcNew w params pk r k) eph) = c) :
    checkMembershipProof hash (genProof (mpcNew w params pk r k) w y c)
      params pk acc eph = true := by
  unfold checkMembershipProof
  rw [decide_eq_true_eq]
  show hash _ = (genProof (mpcNew w params pk r k) w y c).challenge
  have hch : (genProof (mpcNew w params pk r k) w y c).challenge = c := rfl
  rw [hch]
  conv_rhs => rw [← hhash]
  congr 1
  unfold proverChallengeInput genProof mpcNew schnorr pairE
  congr 1
  · ring
  · ring
  · linear_combination (-c) * h2
  · linear_combination (-c) * h1

/-- Claim C2: completeness of the membership proof.  Whenever
Witness::verify accepts, make_membership_proof returns a proof, and
check_membership_proof accepts it for the same parameters, public keys,
accumulator and ephemeral challenge, for every hash function, every
choice of blinders and nonces, and every ephemeral challenge. -/
theorem C2_membership_completeness {E : Type} (hash : ChallengeInput F E → F)
    (params : AccParams F) (pk : PublicKeysW F) (acc y : F)
    (w : UserWitness F) (eph : E) (r : Fin 3 → F) (k : Fin 8 → F)
    (hv : witVerify acc pk params y w = true) :
    makeMembershipProof hash w y acc params pk eph r k =
      some (genProof (mpcNew w params pk r k) w y
        (hash (proverChallengeInput params pk acc
          (mpcNew w params pk r k) eph))) ∧
    checkMembershipProof hash
      (genProof (mpcNew w params pk r k) w y
        (hash (proverChallengeInput params pk acc
          (mpcNew w params pk r k) eph)))
      params pk acc eph = true := by
  constructor
  · unfold makeMembershipProof
    rw [if_pos hv]
  · have hv' := hv
    unfold witVerify at hv'
    rw [Bool.and_eq_true, decide_eq_true_eq, decide_eq_true_eq] at hv'
    obtain ⟨h1, h2⟩ := hv'
    unfold pairE at h1 h2
    rw [sub_eq_zero] at h1 h2
    exact check_of_genProof params pk acc y w r k _ hash eph h1 h2 rfl

/-- Witness for C2: a concrete witness over the 5-element field that
passes Witness::verify, with a constant hash function and unit blinders
and nonces; the produced proof passes check_membership_proof. -/
theorem C2_membership_completeness_witness :
    makeMembershipProof (fun _ => (0 : Fin 5)) ⟨2, 2, 1⟩ 1 4 sampleParams
        ⟨1, 2⟩ () (fun _ => 1) (fun _ => 1) =
      some (genProof (mpcNew ⟨2, 2, 1⟩ sampleParams ⟨1, 2⟩
          (fun _ => 1) (fun _ => 1)) ⟨2, 2, 1⟩ 1
        ((fun _ => (0 : Fin 5)) (proverChallengeInput sampleParams ⟨1, 2⟩ 4
          (mpcNew ⟨2, 2, 1⟩ sampleParams ⟨1, 2⟩ (fun _ => 1) (fun _ => 1))
          ()))) ∧
    checkMembershipProof (fun _ => (0 : Fin 5))
      (genProof (mpcNew ⟨2, 2, 1⟩ sampleParams ⟨1, 2⟩
          (fun _ => 1) (fun _ => 1)) ⟨2, 2, 1⟩ 1
        ((fun _ => (0 : Fin 5)) (proverChallengeInput sampleParams ⟨1, 2⟩ 4
          (mpcNew ⟨2, 2, 1⟩ sampleParams ⟨1, 2⟩ (fun _ => 1) (fun _ => 1))
          ())))
      sampleParams ⟨1, 2⟩ 4 () = true :=
  C2_membership_completeness (fun _ => (0 : Fin 5)) sampleParams ⟨1, 2⟩ 4 1
    ⟨2, 2, 1⟩ () (fun _ => 1) (fun _ => 1) (by decide)

/-- Counterexample for C6: at nonces and blinders all 1, user id 2,
challenge 3 and secret key 1 over the 5-element field, the produced s0 is
k[0] + c * sk = 4, not k[0] - c * sk = 3. -/
theorem C6_counterexample :
    ¬ ((genProof (mpcNew (⟨1, 1, 1⟩ : UserWitness (Fin 5)) sampleParams
          ⟨1, 2⟩ (fun _ => 1) (fun _ => 1)) ⟨1, 1, 1⟩ 2 3).s0 =
        (fun _ => (1 : Fin 5)) 0 - 3 * (1 : Fin 5)) := by
  decide

/-- Claim C6 as amended: the eight response scalars satisfy
s_i = k[i] + c * secret (not minus) with the secret assignment
s0 for sk, s1 for r[0], s2 for r[1], s3 for r[2], s4 for r[0] y,
s5 for r[1] y, s6 for r[2] y, s7 for y. -/
theorem C6_response_scalars (mpc : MPCommitting F) (w : UserWitness F)
    (y c : F) :
    (genProof mpc w y c).s0 = mpc.k 0 + c * w.secret_key ∧
    (genProof mpc w y c).s1 = mpc.k 1 + c * mpc.r 0 ∧
    (genProof mpc w y c).s2 = mpc.k 2 + c * mpc.r 1 ∧
    (genProof mpc w y c).s3 = mpc.k 3 + c * mpc.r 2 ∧
    (genProof mpc w y c).s4 = mpc.k 4 + c * (mpc.r 0 * y) ∧
    (genProof mpc w y c).s5 = mpc.k 5 + c * (mpc.r 1 * y) ∧
    (genProof mpc w y c).s6 = mpc.k 6 + c * (mpc.r 2 * y) ∧
    (genProof mpc w y c).s7 = mpc.k 7 + c * y := by
  unfold genProof schnorr
  exact ⟨by ring, by ring, by ring, by ring, by ring, by ring, by ring,
    by ring⟩

/-! ## The distributed update (src/servers.rs Server::update,
src/user.rs User::post_update and User::prepare_for_update;
claims C8, C10)

Panics (index out of bounds, integer underflow, division by zero) and
divergence are modelled by none.  The in-chunk share and accumulator
indexing is total (getD); it is in bounds in every call the code makes
with a well-formed request. -/

/-- Evaluation of a chunk polynomial against the client's shares of the
powers of y: p[0] + sum of p[i] * y_shares[i-1]. -/
def evalShares (p yShares : List F) : F :=
  (List.range (p.length - 1)).foldl
    (fun acc i => acc + p.getD (i + 1) 0 * yShares.getD i 0) (p.getD 0 0)

/-- One iteration of the Server::update loop: the chunk's d polynomial,
its evaluation, and the G1 combination of the partial-product
evaluations with the accumulator history. -/
def serverUpdateChunk (dels accs yShares : List F)
    (delStart accStart k : Nat) : F × F :=
  let chunk := (dels.drop delStart).take (k - 1)
  let dPoly := chunk.foldl (fun p c => polyMulLinear c p) [1]
  let vPolys := (List.range chunk.length).map
    (fun j => (chunk.take j).foldl (fun p c => polyMulLinear c p) [1])
  let d := evalShares dPoly yShares
  let vEvals := vPolys.map (fun v => evalShares v yShares)
  let vPoint := (List.range vEvals.length).foldl
    (fun acc i => acc + accs.getD (accStart + i) 0 * vEvals.getD i 0) 0
  (d, vPoint)

/-- The Server::update while loop, by fuel; none models divergence, which
the Rust loop exhibits exactly when k = 1 and there are chunks left. -/
def serverUpdateLoop (dels accs yShares : List F) (k : Nat) :
    Nat → Nat → Nat → List F → List F → Option (List F × List F)
  | 0, _, _, _, _ => none
  | fuel + 1, delStart, accStart, ds, vs =>
    if delStart < dels.length then
      let dv := serverUpdateChunk dels accs yShares delStart accStart k
      serverUpdateLoop dels accs yShares k fuel (delStart + (k - 1))
        (accStart + (k - 1)) (ds ++ [dv.1]) (vs ++ [dv.2])
    else some (ds, vs)

/-- Server::update: empty answer when the request spans more epochs than
deletions are retained, otherwise the chunked polynomial evaluation. -/
def serverUpdate (s : ServerState F) (numEpochs : Nat) (yShares : List F) :
    Option (List F × List F) :=
  if numEpochs > s.deletions.length then some ([], [])
  else
    let k := yShares.length + 1
    serverUpdateLoop s.deletions s.accumulators yShares k
      (s.deletions.length + 1) (s.deletions.length - numEpochs)
      (s.accumulators.length - numEpochs) [] []

/-- Appending one server's returned values to the per-chunk share sets
(resizing on first use); none models the index panic when a server
returns more chunks than the first server did. -/
def pushShares (cur : List (List (F × F))) (yv : F) (vals : List F) :
    Option (List (List (F × F))) :=
  let start := if cur.isEmpty then
    List.replicate vals.length ([] : List (F × F)) else cur
  if vals.length > start.length then none
  else some ((List.range start.length).map (fun ii =>
    if ii < vals.length then start.getD ii [] ++ [(yv, vals.getD ii 0)]
    else start.getD ii []))

/-- The d/v chunk-share collection loop of User::post_update over the
server indices; none models the dvs or y_values index panics. -/
def buildChunksFrom (yValues : List F) (dvs : List (List F × List F)) :
    List Nat → List (List (F × F)) → List (List (F × F)) →
    Option (List (List (F × F)) × List (List (F × F)))
  | [], dcs, vcs => some (dcs, vcs)
  | i :: rest, dcs, vcs =>
    if i < dvs.length ∧ i < yValues.length then
      match pushShares dcs (yValues.getD i 0) (dvs.getD i ([], [])).1,
          pushShares vcs (yValues.getD i 0) (dvs.getD i ([], [])).2 with
      | some dcs', some vcs' => buildChunksFrom yValues dvs rest dcs' vcs'
      | _, _ => none
    else none

/-- The witness-rewrite loop of User::post_update over the reconstructed
chunks. -/
def postUpdateLoop (coefficients : List F)
    (checkCoefficients : Option (List F)) (vcs : List (List (F × F))) :
    List (List (F × F)) → Nat → F → Option (Except String F)
  | [], _, wit => some (Except.ok wit)
  | chunk :: rest, i, wit =>
    match shamirRebuildScalar chunk coefficients checkCoefficients with
    | some dChunk =>
      if dChunk = 0 then some (Except.error "user has been deleted")
      else if i < vcs.length then
        match shamirRebuildPoint (vcs.getD i []) coefficients
            checkCoefficients with
        | some vChunk =>
          postUpdateLoop coefficients checkCoefficients vcs rest (i + 1)
            ((wit - vChunk) * dChunk⁻¹)
        | none => some (Except.error "malicious server")
      else none
    | none => some (Except.error "malicious server")

/-- User::post_update: collect the chunk share sets, compute the Shamir
coefficients once from the first scalar chunk, then reconstruct each
chunk and rewrite the witness.  none models the panic on
d_chunks_shares[0] when every server answered with empty vectors. -/
def postUpdate (oldWitness : F) (threshold : Nat)
    (yShares : List (List F)) (yValues : List F)
    (dvs : List (List F × List F)) : Option (Except String F) :=
  match buildChunksFrom yValues dvs (List.range yShares.length) [] [] with
  | none => none
  | some (dcs, vcs) =>
    match dcs.head? with
    | none => none
    | some firstChunk =>
      match shamirCoefficients threshold firstChunk with
      | none => none
      | some (coefficients, checkCoefficients) =>
        postUpdateLoop coefficients checkCoefficients vcs dcs 0 oldWitness

/-- Claim C8, the faithful part and the bug: on a fresh server (no
deletions), an update request for one epoch returns two empty vectors;
feeding those empty answers to User::post_update does not return the
insufficient-epochs error - it panics indexing d_chunks_shares[0] on the
empty chunk list (modelled as none). -/
theorem C8_insufficient_epochs :
    serverUpdate sampleServer 1 [2] = some ([], []) ∧
    postUpdate (1 : Fin 5) 2 [[2], [2]] [1, 2]
      [([], []), ([], [])] = none := by
  constructor
  · decide
  · rfl

/-! ## The update window sizing (claim C10) -/

/-- Modelled from the f64 expression ((d as f64) * 2.5).sqrt() as usize of
User::prepare_for_update; exact for the integer inputs of interest (in
particular kInitial 0 = 0, the value claim C10 turns on). -/
def kInitial (d : Nat) : Nat := Nat.sqrt (5 * d / 2)

/-- One evaluation of the window-sizing loop guard
2 * k < 5 * (d + k - 1) / k.  With k = 0 the guard itself panics: for
d = 0 the usize subtraction d + k - 1 underflows, and the division by
k = 0 panics in any case; none models the panic. -/
def windowLoopCond (d k : Nat) : Option Bool :=
  if k = 0 then none
  else some (2 * k < 5 * (d + k - 1) / k)

/-- The window-sizing while loop, by fuel. -/
def windowSize : Nat → Nat → Nat → Option Nat
  | 0, _, _ => none
  | fuel + 1, d, k =>
    match windowLoopCond d k with
    | none => none
    | some true => windowSize fuel d (k + 1)
    | some false => some k

/-- User::prepare_for_update: threshold validation, epoch difference,
window sizing, then the Shamir shares of the powers y, y^2, ..., y^(k-1)
at the points 1..num_servers.  randCoeffs j supplies the threshold - 1
random polynomial coefficients drawn for the power y^(j+1). -/
def prepareForUpdate (epoch newEpoch numServers threshold : Nat) (y : F)
    (randCoeffs : Nat → List F) :
    Option (Except String (Nat × List (List F) × List F)) :=
  if numServers < threshold then some (Except.error "invalid threshold")
  else if threshold ≤ 1 then some (Except.error "invalid threshold")
  else if newEpoch < epoch then none
  else
    let d := newEpoch - epoch
    match windowSize (5 * d + 10) d (kInitial d) with
    | none => none
    | some k =>
      let yShares := (List.range numServers).map (fun i =>
        (List.range (k - 1)).map (fun j =>
          polyEval (y ^ (j + 1) :: randCoeffs j) ((i + 1 : Nat) : F)))
      let yValues := (List.range numServers).map
        (fun i => ((i + 1 : Nat) : F))
      some (Except.ok (d, yShares, yValues))

/-- Claim C10: with valid threshold parameters and new_epoch equal to the
user's epoch (epoch difference 0), prepare_for_update neither returns a
value nor an error: the window sizing computes 5 * (0 + 0 - 1) / 0, an
underflow and a division by zero, and panics (modelled as none). -/
theorem C10_prepare_zero_epochs (epoch numServers threshold : Nat)
    (y : F) (randCoeffs : Nat → List F)
    (h1 : 1 < threshold) (h2 : threshold ≤ numServers) :
    prepareForUpdate epoch epoch numServers threshold y randCoeffs =
      none := by
  unfold prepareForUpdate
  rw [if_neg (not_lt.mpr h2), if_neg (not_le.mpr h1),
    if_neg (lt_irrefl epoch)]
  simp only [Nat.sub_self]
  rfl

/-- Witness for C10: a user at epoch 3 asked to update to epoch 3 with 2
servers and threshold 2 panics. -/
theorem C10_prepare_zero_epochs_witness :
    prepareForUpdate 3 3 2 2 (1 : Fin 5) (fun _ => [0]) = none :=
  C10_prepare_zero_epochs 3 2 2 1 (fun _ => [0]) (by norm_num)
    (by norm_num)

end Model

end AllosaurVerif
